import Mathlib

/-! Verification development for the `segmented-rs` repository: a shallow
embedding of the segmented list (`src/list.rs`) and of the bump arena built
on raw page mappings (`src/alloc.rs`), together with proofs of the documented
properties.

Modelling conventions: machine integers (`usize`) become `Nat` — the
quantities that occur stay far below `2 ^ 64`, and where 64-bit behaviour
matters (`63 - adjusted.leading_zeros()`) the embedding computes the floor
base-2 logarithm, which agrees with the source on the whole representable
range; raw pointers become `Nat` addresses; `MaybeUninit<T>` slots become
`Option T` with `none` standing for "uninitialized"; panics and aborts become
`none` of an `Option`-returning operation.  The addresses produced by the
`mmap` system call (an external collaborator, see the spec) are supplied by
an oracle `base : Nat → Nat`: the mapping created for arena block slot `i`
lands at address `base i`. -/

namespace Segmented

/-- `BLOCK_COUNT` from `src/list.rs`. -/
def BLOCK_COUNT : Nat := 24

/-- `START_SIZE` from `src/list.rs`. -/
def START_SIZE : Nat := 8

/-- `LOG2_OF_START_SIZE` from `src/list.rs`. -/
def LOG2_OF_START_SIZE : Nat := 3

/-- `MIN_SIZE` from `src/alloc.rs`. -/
def MIN_SIZE : Nat := 4096

/-- `MAX_BLOCKS` from `src/alloc.rs`. -/
def MAX_BLOCKS : Nat := 55

/-- `GROWTH` from `src/alloc.rs`. -/
def GROWTH : Nat := 2

/-- Rust's `usize::next_multiple_of`: the smallest multiple of `m` that is
`≥ n` (used by `SegmentedAlloc::request` for the cursor and the padded
size).  For `m = 0` Rust panics; every call site passes a `Layout`
alignment, which is always positive. -/
def next_multiple_of (n m : Nat) : Nat := n + (m - n % m) % m

/-- Fuel-driven floor base-2 logarithm; with fuel `n` it is total and equals
`Nat.log 2` (proved below), while reducing by structural recursion. -/
def log2fuel : Nat → Nat → Nat
  | 0, _ => 0
  | fuel + 1, n => if 2 ≤ n then log2fuel fuel (n / 2) + 1 else 0

/-- Model of `63 - adjusted.leading_zeros()` in `idx_to_block_idx`: the
zero-based position of the most significant set bit, i.e. the floor base-2
logarithm of the argument. -/
def msb_pos (n : Nat) : Nat := log2fuel n n

/-- Rust's `usize::is_power_of_two`, used by `Layout::from_size_align`
(stated via the floor base-2 logarithm, which is extensionally the same
test). -/
def isPow2 (n : Nat) : Bool := n == 2 ^ msb_pos n

/-- The validity test of `Layout::from_size_align(size, align)`: the
alignment must be a power of two and the size, rounded up to the alignment,
must not exceed `isize::MAX`. -/
def layoutValid (size align : Nat) : Bool :=
  isPow2 align && decide (size + (align - 1) ≤ 2 ^ 63 - 1)

/-- `SegmentedIdx` from `src/list.rs`: a `(block, index into block)` pair. -/
abbrev SegmentedIdx := Nat × Nat

/-- `SegmentedList::idx_to_block_idx` from `src/list.rs` (it reads no state,
so it is embedded as a plain function).  `1 << block` is written
`2 ^ block`. -/
def idx_to_block_idx (idx : Nat) : SegmentedIdx :=
  if idx < START_SIZE then (0, idx)
  else
    let adjusted := idx + START_SIZE
    let msb := msb_pos adjusted
    let block := msb - LOG2_OF_START_SIZE
    let block_start := START_SIZE * (2 ^ block - 1)
    (block, idx - block_start)

/-- First logical index stored in list block `b` (the spec's
`block_start(block)`). -/
def blockStart (b : Nat) : Nat := START_SIZE * (2 ^ b - 1)

/-- Element capacity of list block `b` (the spec's `START_SIZE * 2^i`). -/
def blockCap (b : Nat) : Nat := START_SIZE * 2 ^ b

/-- `SegmentedAllocCtx` from `src/alloc.rs`.  The fixed array
`[Option<NonNull<u8>>; MAX_BLOCKS]` is modelled as a function that the
operations only populate at indices `< MAX_BLOCKS`; `blocks i = some a`
means slot `i` holds a mapping based at address `a`. -/
structure SegmentedAllocCtx where
  cur_block : Nat
  size : Nat
  pos : Nat
  blocks : Nat → Option Nat
  block_sizes : Nat → Nat

/-- `SegmentedAllocCtx::new`. -/
def SegmentedAllocCtx.new : SegmentedAllocCtx where
  cur_block := 0
  size := MIN_SIZE
  pos := 0
  blocks := fun _ => none
  block_sizes := fun _ => 0

/-- The `loop { ... }` inside `SegmentedAlloc::request`: each iteration
either serves the request from the active block or maps a block of double
the active size and retries.  The fuel only bounds the iteration count;
`MAX_BLOCKS` iterations always suffice because the loop aborts (`none`,
modelling the `Exceeded MAX_BLOCKS` assertion) once `cur_block + 1` reaches
`MAX_BLOCKS`.  The `checked_add` cannot overflow over `Nat`. -/
def reqLoop (base : Nat → Nat) (sz al : Nat) :
    Nat → SegmentedAllocCtx → Option (Nat × SegmentedAllocCtx)
  | 0, _ => none
  | fuel + 1, ctx =>
    let offset := next_multiple_of ctx.pos al
    let padded_size := next_multiple_of sz al
    let e := offset + padded_size
    if ctx.size < e then
      if ctx.cur_block + 1 < MAX_BLOCKS then
        let new_size := ctx.size * GROWTH
        let nb := ctx.cur_block + 1
        reqLoop base sz al fuel
          { ctx with
            cur_block := nb
            blocks := Function.update ctx.blocks nb (some (base nb))
            block_sizes := Function.update ctx.block_sizes nb new_size
            size := new_size
            pos := 0 }
      else none
    else
      match ctx.blocks ctx.cur_block with
      | none => none
      | some b => some (b + offset, { ctx with pos := e })

/-- `SegmentedAlloc::request` from `src/alloc.rs`: lazily maps the first
block, then runs the bump/grow loop.  `sz`/`al` are the layout's size and
alignment; the result is the returned address together with the updated
allocator state, `none` modelling an abort. -/
def SegmentedAllocCtx.request (base : Nat → Nat) (ctx : SegmentedAllocCtx)
    (sz al : Nat) : Option (Nat × SegmentedAllocCtx) :=
  let ctx1 :=
    if (ctx.blocks 0).isNone then
      { ctx with
        blocks := Function.update ctx.blocks 0 (some (base 0))
        block_sizes := Function.update ctx.block_sizes 0 MIN_SIZE }
    else ctx
  reqLoop base sz al MAX_BLOCKS ctx1

/-- Modelled from the spec: `SegmentedAlloc::free` is called by
`impl Drop for SegmentedList` in `src/list.rs` but is not defined anywhere
in the sources (the arena's own `Drop` impl is commented out in
`src/alloc.rs`).  Per the spec, disposal "releases every mapped block back
to the operating system in one bulk pass".  The model returns the sequence
of `munmap (address, length)` calls issued by that single pass, walking the
block table in order and stopping at the first empty slot. -/
def freeGo (ctx : SegmentedAllocCtx) : Nat → Nat → List (Nat × Nat)
  | _, 0 => []
  | i, fuel + 1 =>
    if ctx.block_sizes i = 0 then []
    else
      match ctx.blocks i with
      | none => []
      | some b => (b, ctx.block_sizes i) :: freeGo ctx (i + 1) fuel

/-- Modelled from the spec: the bulk-release pass over the `MAX_BLOCKS`
block slots (see `freeGo`). -/
def SegmentedAllocCtx.free (ctx : SegmentedAllocCtx) : List (Nat × Nat) :=
  freeGo ctx 0 MAX_BLOCKS

/-- Runs a sequence of `(size, align)` allocation requests against the
arena, collecting `(address, size, align)` for each request served. -/
def requestAll (base : Nat → Nat) : SegmentedAllocCtx → List (Nat × Nat) →
    Option (List (Nat × Nat × Nat) × SegmentedAllocCtx)
  | ctx, [] => some ([], ctx)
  | ctx, (sz, al) :: rest =>
    match ctx.request base sz al with
    | none => none
    | some (a, ctx1) =>
      match requestAll base ctx1 rest with
      | none => none
      | some (l, ctxF) => some ((a, sz, al) :: l, ctxF)

/-- One storage block of the list: the address the arena returned for it
(its identity, for pointer-stability statements) and its slots.  A slot is
`some v` once written and `none` while uninitialized — the model of
`MaybeUninit<T>`. -/
structure Block (T : Type) where
  ptr : Nat
  data : Nat → Option T

/-- `SegmentedList` from `src/list.rs`.  The array
`[Option<*mut MaybeUninit<T>>; BLOCK_COUNT]` is a function that the
operations only populate at indices `< BLOCK_COUNT`. -/
structure SegmentedList (T : Type) where
  blocks : Nat → Option (Block T)
  block_lengths : Nat → Nat
  allocator : SegmentedAllocCtx
  len : Nat

/-- `SegmentedList::new`.  `sizeT` and `alignT` stand for `size_of::<T>()`
and `align_of::<T>()`; the `Layout::from_size_align(..).unwrap()` is the
`layoutValid` guard.  The first block is allocated eagerly, exactly as in
the source. -/
def SegmentedList.new (T : Type) (sizeT alignT : Nat) (base : Nat → Nat) :
    Option (SegmentedList T) :=
  let s : SegmentedList T :=
    { blocks := fun _ => none, block_lengths := fun _ => 0,
      allocator := SegmentedAllocCtx.new, len := 0 }
  let as_bytes := START_SIZE * sizeT
  if layoutValid as_bytes alignT then
    match s.allocator.request base as_bytes alignT with
    | none => none
    | some (ptr, a) =>
      some { s with
             allocator := a
             blocks := Function.update s.blocks 0
               (some { ptr := ptr, data := fun _ => none })
             block_lengths := Function.update s.block_lengths 0 START_SIZE }
  else none

/-- `SegmentedList::alloc_block` (`START_SIZE << block` is written
`START_SIZE * 2 ^ block`). -/
def SegmentedList.alloc_block {T : Type} (sizeT alignT : Nat) (base : Nat → Nat)
    (s : SegmentedList T) (block : Nat) : Option (SegmentedList T) :=
  let elems := START_SIZE * 2 ^ block
  let bytes := elems * sizeT
  if layoutValid bytes alignT then
    match s.allocator.request base bytes alignT with
    | none => none
    | some (ptr, a) =>
      some { s with
             allocator := a
             blocks := Function.update s.blocks block
               (some { ptr := ptr, data := fun _ => none })
             block_lengths := Function.update s.block_lengths block elems }
  else none

/-- `SegmentedList::push`.  The `si.1 < BLOCK_COUNT` test models the
fixed-size-array indexing `self.blocks[block]`, which is fatal beyond
`BLOCK_COUNT`; writing the slot leaves every other slot untouched. -/
def SegmentedList.push {T : Type} (sizeT alignT : Nat) (base : Nat → Nat)
    (s : SegmentedList T) (v : T) : Option (SegmentedList T) :=
  let si := idx_to_block_idx s.len
  if si.1 < BLOCK_COUNT then
    let step :=
      match s.blocks si.1 with
      | none => s.alloc_block sizeT alignT base si.1
      | some _ => some s
    match step with
    | none => none
    | some s1 =>
      match s1.blocks si.1 with
      | none => none
      | some blk =>
        some { s1 with
               blocks := Function.update s1.blocks si.1
                 (some { blk with data := Function.update blk.data si.2 (some v) }),
               len := s1.len + 1 }
  else none

/-- `SegmentedList::get`.  The outer option is the function's return value
(`none` for an out-of-range index); the inner option is the slot the
returned reference points at (`none` would be a read of uninitialized
memory). -/
def SegmentedList.get {T : Type} (s : SegmentedList T) (idx : Nat) :
    Option (Option T) :=
  if s.len ≤ idx then none
  else
    match s.blocks (idx_to_block_idx idx).1 with
    | none => none
    | some blk => some (blk.data (idx_to_block_idx idx).2)

/-- `SegmentedList::get_mut`: the same lookup as `get`, giving the slot the
mutable reference points at. -/
def SegmentedList.get_mut {T : Type} (s : SegmentedList T) (idx : Nat) :
    Option (Option T) :=
  if s.len ≤ idx then none
  else
    match s.blocks (idx_to_block_idx idx).1 with
    | none => none
    | some blk => some (blk.data (idx_to_block_idx idx).2)

/-- `impl Index for SegmentedList`: `Except.error` models the two fatal
paths — the explicit out-of-bounds message and the `unwrap` of an absent
block. -/
def SegmentedList.index {T : Type} (s : SegmentedList T) (idx : Nat) :
    Except String (Option T) :=
  if s.len ≤ idx then Except.error "index out of bounds for List of length"
  else
    match s.blocks (idx_to_block_idx idx).1 with
    | none => Except.error "called unwrap on a None value"
    | some blk => Except.ok (blk.data (idx_to_block_idx idx).2)

/-- `impl IndexMut for SegmentedList`: identical control flow to `index`. -/
def SegmentedList.index_mut {T : Type} (s : SegmentedList T) (idx : Nat) :
    Except String (Option T) :=
  if s.len ≤ idx then Except.error "index out of bounds for List of length"
  else
    match s.blocks (idx_to_block_idx idx).1 with
    | none => Except.error "called unwrap on a None value"
    | some blk => Except.ok (blk.data (idx_to_block_idx idx).2)

/-- `SegmentedList::compute_segmented_idx`. -/
def SegmentedList.compute_segmented_idx {T : Type} (s : SegmentedList T)
    (idx : Nat) : Option SegmentedIdx :=
  if s.len < idx then none else some (idx_to_block_idx idx)

/-- `SegmentedList::get_with_segmented_idx`: no bounds check, only the
`Option` of the block table. -/
def SegmentedList.get_with_segmented_idx {T : Type} (s : SegmentedList T)
    (si : SegmentedIdx) : Option (Option T) :=
  match s.blocks si.1 with
  | none => none
  | some blk => some (blk.data si.2)

/-- `SegmentedList::capacity`: the sum of all `block_lengths` entries. -/
def SegmentedList.capacity {T : Type} (s : SegmentedList T) : Nat :=
  ((List.range BLOCK_COUNT).map s.block_lengths).sum

/-- The block-walking loop of `SegmentedList::clear`, returning the
`(block, slot)` pairs on which `assume_init_drop` is called, in order.  The
fuel is `BLOCK_COUNT`, the exact iteration count of the `for` loop. -/
def clearGo {T : Type} (s : SegmentedList T) : Nat → Nat → Nat → List (Nat × Nat)
  | _, _, 0 => []
  | remaining, bi, fuel + 1 =>
    if remaining = 0 then []
    else
      match s.blocks bi with
      | none => []
      | some _ =>
        let take := min remaining (s.block_lengths bi)
        ((List.range take).map fun i => (bi, i)) ++
          clearGo s (remaining - take) (bi + 1) fuel

/-- `SegmentedList::clear`: the list of dropped slots together with the
resulting state.  `assume_init_drop` leaves a slot logically uninitialized
(`none`); `len` is reset to 0; the block table, the block lengths and the
allocator are untouched. -/
def SegmentedList.clear {T : Type} (s : SegmentedList T) :
    List (Nat × Nat) × SegmentedList T :=
  let dropped := clearGo s s.len 0 BLOCK_COUNT
  (dropped,
    { s with
      len := 0
      blocks := fun b =>
        (s.blocks b).map fun blk =>
          { blk with data := fun o => if (b, o) ∈ dropped then none else blk.data o } })

/-- `push` in a loop (also the body of the `Extend` / `FromIterator`
impls). -/
def pushAll {T : Type} (sizeT alignT : Nat) (base : Nat → Nat)
    (s : SegmentedList T) (vs : List T) : Option (SegmentedList T) :=
  vs.foldl (fun acc v => acc.bind fun st => st.push sizeT alignT base v) (some s)

/-- `impl Drop for SegmentedList` body: `self.allocator.free()` — the munmap
calls issued when the list is destroyed. -/
def SegmentedList.dropCalls {T : Type} (s : SegmentedList T) : List (Nat × Nat) :=
  s.allocator.free

/-- The arena state right after its lazy first mapping (the state `request`
reaches from `SegmentedAllocCtx.new` before entering the loop). -/
def startedCtx (base : Nat → Nat) : SegmentedAllocCtx where
  cur_block := 0
  size := MIN_SIZE
  pos := 0
  blocks := Function.update (fun _ => none) 0 (some (base 0))
  block_sizes := Function.update (fun _ => 0) 0 MIN_SIZE

/-- Well-formedness of a started arena: slots `0..=cur_block` are mapped at
the oracle addresses with the geometric sizes, nothing beyond is mapped,
`size` caches the active block's size and the cursor stays inside it.
Established by the first mapping and preserved by every request. -/
structure Wf (base : Nat → Nat) (ctx : SegmentedAllocCtx) : Prop where
  cb_lt : ctx.cur_block < MAX_BLOCKS
  mapped : ∀ i, i ≤ ctx.cur_block → ctx.blocks i = some (base i)
  unmapped : ∀ i, ctx.cur_block < i → ctx.blocks i = none
  sizes : ∀ i, i ≤ ctx.cur_block → ctx.block_sizes i = MIN_SIZE * 2 ^ i
  sizes_hi : ∀ i, ctx.cur_block < i → ctx.block_sizes i = 0
  size_eq : ctx.size = MIN_SIZE * 2 ^ ctx.cur_block
  pos_le : ctx.pos ≤ ctx.size

/-- A byte range `[a, a + s)` lying inside one of the arena's mapped
blocks — below the cursor if that block is the active one.  Every address
range handed out so far satisfies this. -/
def inBlocks (base : Nat → Nat) (ctx : SegmentedAllocCtx) (a s : Nat) : Prop :=
  ∃ i, i ≤ ctx.cur_block ∧ base i ≤ a ∧ a + s ≤ base i + MIN_SIZE * 2 ^ i ∧
    (i = ctx.cur_block → a + s ≤ base i + ctx.pos)

/-- The reachable-state invariant of `SegmentedList`, indexed by the logical
content `vs` (the values pushed so far, in push order). -/
structure ListInv {T : Type} (s : SegmentedList T) (vs : List T) : Prop where
  len_eq : s.len = vs.length
  hi_none : ∀ b, BLOCK_COUNT ≤ b → s.blocks b = none
  alloc_len : ∀ b blk, s.blocks b = some blk → s.block_lengths b = blockCap b
  unalloc_len : ∀ b, s.blocks b = none → s.block_lengths b = 0
  down : ∀ b b', b' ≤ b → (s.blocks b).isSome → (s.blocks b').isSome
  init : ∀ i (hi : i < vs.length), ∃ blk,
    s.blocks (idx_to_block_idx i).1 = some blk ∧
    blk.data (idx_to_block_idx i).2 = some (vs.get ⟨i, hi⟩)
  uninit : ∀ i, vs.length ≤ i → ∀ blk,
    s.blocks (idx_to_block_idx i).1 = some blk →
    blk.data (idx_to_block_idx i).2 = none

/-- A concrete page-mapping oracle for witnesses: page-aligned, widely
separated block addresses. -/
def demoBase : Nat → Nat := fun i => 2 ^ 70 * i

/-- A page-mapping oracle witnessing that `mmap` results are only guaranteed
page-aligned: slot 1 lands at an address that is a multiple of 4096 but not
of 8192. -/
def cbase : Nat → Nat := fun i => 2 ^ 70 * i + if i = 1 then 4096 else 0

/-- The arena state reached by a fresh arena after a single 5000-byte,
8-byte-aligned request (the spec's growth scenario), with `demoBase` as
page-mapping oracle. -/
def c4ctx : SegmentedAllocCtx where
  cur_block := 1
  size := 8192
  pos := 5000
  blocks := Function.update (Function.update (fun _ => none) 0 (some (demoBase 0)))
    1 (some (demoBase 1))
  block_sizes := Function.update (Function.update (fun _ => 0) 0 MIN_SIZE) 1 8192

/-- The arena state reached by a fresh arena (oracle `demoBase`) after the
two requests `(16 bytes, align 8)` and `(32 bytes, align 32)`. -/
def c5ctx : SegmentedAllocCtx := { startedCtx demoBase with pos := 64 }

/-- A concrete list state whose arena is the started `demoBase` arena (used
by the disposal witness). -/
def c9list : SegmentedList Nat where
  blocks := fun _ => none
  block_lengths := fun _ => 0
  allocator := startedCtx demoBase
  len := 0

/-- A small concrete list (element size and alignment 8, three pushes) used
by several witnesses. -/
def demoList : Option (SegmentedList Nat) :=
  (SegmentedList.new Nat 8 8 demoBase).bind fun s0 =>
    pushAll 8 8 demoBase s0 [10, 20, 30]

theorem next_multiple_of_le (n m : Nat) : n ≤ next_multiple_of n m :=
  Nat.le_add_right _ _

theorem next_multiple_of_zero_left (m : Nat) : next_multiple_of 0 m = 0 := by
  simp [next_multiple_of, Nat.zero_mod, Nat.sub_zero, Nat.mod_self]

theorem dvd_next_multiple_of {m : Nat} (hm : 0 < m) (n : Nat) :
    m ∣ next_multiple_of n m := by
  have hdm := Nat.div_add_mod n m
  by_cases h0 : n % m = 0
  · refine ⟨n / m, ?_⟩
    simp only [next_multiple_of, h0, Nat.sub_zero, Nat.mod_self, Nat.add_zero]
    omega
  · have hlt : n % m < m := Nat.mod_lt _ hm
    have hsub : (m - n % m) % m = m - n % m := Nat.mod_eq_of_lt (by omega)
    refine ⟨n / m + 1, ?_⟩
    rw [next_multiple_of, hsub, Nat.mul_succ]
    omega

theorem log2fuel_spec : ∀ fuel n k, 2 ^ k ≤ n → n < 2 ^ (k + 1) →
    n < 2 ^ fuel → log2fuel fuel n = k := by
  intro fuel
  induction fuel with
  | zero =>
    intro n k h1 _ hf
    have : 1 ≤ n := le_trans (Nat.one_le_two_pow) h1
    simp at hf
    omega
  | succ fuel ih =>
    intro n k h1 h2 hf
    match k with
    | 0 =>
      have : n < 2 := by simpa using h2
      have : ¬ 2 ≤ n := by omega
      simp [log2fuel, this]
    | k + 1 =>
      have h2k : (2 : Nat) ≤ 2 ^ (k + 1) := by
        calc (2 : Nat) = 2 ^ 1 := by norm_num
        _ ≤ 2 ^ (k + 1) := Nat.pow_le_pow_right (by norm_num) (by omega)
      have hn2 : 2 ≤ n := le_trans h2k h1
      have hd1 : 2 ^ k ≤ n / 2 := by
        rw [Nat.le_div_iff_mul_le (by norm_num)]
        calc 2 ^ k * 2 = 2 ^ (k + 1) := by rw [pow_succ]
        _ ≤ n := h1
      have hd2 : n / 2 < 2 ^ (k + 1) := by
        rw [Nat.div_lt_iff_lt_mul (by norm_num)]
        calc n < 2 ^ (k + 1 + 1) := h2
        _ = 2 ^ (k + 1) * 2 := by rw [pow_succ]
      have hdf : n / 2 < 2 ^ fuel := by
        rw [Nat.div_lt_iff_lt_mul (by norm_num)]
        calc n < 2 ^ (fuel + 1) := hf
        _ = 2 ^ fuel * 2 := by rw [pow_succ]
      simp only [log2fuel, if_pos hn2]
      rw [ih (n / 2) k hd1 hd2 hdf]

theorem msb_pos_spec {n k : Nat} (h1 : 2 ^ k ≤ n) (h2 : n < 2 ^ (k + 1)) :
    msb_pos n = k :=
  log2fuel_spec n n k h1 h2 (Nat.lt_two_pow n)

theorem blockStart_succ (b : Nat) :
    blockStart (b + 1) = blockStart b + blockCap b := by
  have h : 1 ≤ 2 ^ b := Nat.one_le_two_pow
  simp only [blockStart, blockCap, pow_succ, START_SIZE]
  omega

theorem blockStart_mono {b b' : Nat} (h : b ≤ b') : blockStart b ≤ blockStart b' :=
  Nat.mul_le_mul_left _ (Nat.sub_le_sub_right (Nat.pow_le_pow_right (by norm_num) h) 1)

theorem blockStart_as_pow {b : Nat} : blockStart b + START_SIZE = 2 ^ (b + 3) := by
  have h : 1 ≤ 2 ^ b := Nat.one_le_two_pow
  have : (2 : Nat) ^ (b + 3) = 2 ^ b * 8 := by
    rw [pow_add]; norm_num
  simp only [blockStart, START_SIZE, this]
  omega

/-- Core shape of the index mapping: every index lands in the block whose
half-open range `[blockStart b, blockStart b + blockCap b)` contains it, at
offset `idx - blockStart b`. -/
theorem idx_to_block_idx_eq (idx : Nat) :
    ∃ b, idx_to_block_idx idx = (b, idx - blockStart b) ∧
      blockStart b ≤ idx ∧ idx < blockStart b + blockCap b := by
  by_cases h : idx < START_SIZE
  · refine ⟨0, ?_, ?_, ?_⟩
    · simp [idx_to_block_idx, h, blockStart]
    · simp [blockStart]
    · simpa [blockStart, blockCap] using h
  · have h8 : 8 ≤ idx := by
      have := Nat.le_of_not_lt h
      simp only [START_SIZE] at this
      exact this
    obtain ⟨m, hm1, hm2⟩ : ∃ m, 2 ^ m ≤ idx + START_SIZE ∧
        idx + START_SIZE < 2 ^ (m + 1) :=
      ⟨Nat.log 2 (idx + START_SIZE),
        Nat.pow_log_le_self 2 (by simp [START_SIZE]),
        Nat.lt_pow_succ_log_self (by norm_num) _⟩
    have hm4 : 4 ≤ m := by
      by_contra hc
      push_neg at hc
      have hle : (2 : Nat) ^ (m + 1) ≤ 2 ^ 4 :=
        Nat.pow_le_pow_right (by norm_num) (by omega)
      have hlt : idx + START_SIZE < 2 ^ 4 := lt_of_lt_of_le hm2 hle
      simp only [START_SIZE] at hlt
      norm_num at hlt
      omega
    have hmsb : msb_pos (idx + START_SIZE) = m := msb_pos_spec hm1 hm2
    have hb3 : (m - LOG2_OF_START_SIZE) + 3 = m := by
      simp only [LOG2_OF_START_SIZE]
      omega
    have hbs : blockStart (m - LOG2_OF_START_SIZE) + START_SIZE = 2 ^ m := by
      rw [blockStart_as_pow, hb3]
    have hcap : blockCap (m - LOG2_OF_START_SIZE) = 2 ^ m := by
      have h28 : (2 : Nat) ^ m = 2 ^ (m - LOG2_OF_START_SIZE) * 8 := by
        conv_lhs => rw [← hb3]
        rw [pow_add]
        norm_num
      simp [blockCap, START_SIZE, h28, Nat.mul_comm]
    refine ⟨m - LOG2_OF_START_SIZE, ?_, ?_, ?_⟩
    · simp only [idx_to_block_idx, if_neg h]
      rw [hmsb]
      rfl
    · -- blockStart b ≤ idx  ⟺  2 ^ m ≤ idx + 8
      rw [← hbs] at hm1
      omega
    · -- idx < blockStart b + blockCap b  ⟺  idx + 8 < 2 ^ (m + 1)
      have hp : (2 : Nat) ^ (m + 1) = 2 ^ m * 2 := by rw [pow_succ]
      rw [hcap, ← hbs]
      omega

/-- Localization: an index inside block `b`'s range maps exactly to
`(b, idx - blockStart b)`. -/
theorem idx_to_block_idx_loc {b idx : Nat} (h1 : blockStart b ≤ idx)
    (h2 : idx < blockStart b + blockCap b) :
    idx_to_block_idx idx = (b, idx - blockStart b) := by
  obtain ⟨b', he, hl, hr⟩ := idx_to_block_idx_eq idx
  rcases Nat.lt_trichotomy b b' with hlt | heq | hgt
  · have : blockStart b + blockCap b ≤ blockStart b' := by
      calc blockStart b + blockCap b = blockStart (b + 1) := (blockStart_succ b).symm
      _ ≤ blockStart b' := blockStart_mono hlt
    omega
  · rw [heq] at h1 h2 ⊢; exact he
  · have : blockStart b' + blockCap b' ≤ blockStart b := by
      calc blockStart b' + blockCap b' = blockStart (b' + 1) := (blockStart_succ b').symm
      _ ≤ blockStart b := blockStart_mono hgt
    omega

theorem idx_to_block_idx_recon (idx : Nat) :
    blockStart (idx_to_block_idx idx).1 + (idx_to_block_idx idx).2 = idx := by
  obtain ⟨b, he, hl, _⟩ := idx_to_block_idx_eq idx
  rw [he]
  simp only
  omega

theorem idx_to_block_idx_injective : Function.Injective idx_to_block_idx := by
  intro i j h
  have hi := idx_to_block_idx_recon i
  have hj := idx_to_block_idx_recon j
  rw [h] at hi
  omega

theorem idx_to_block_idx_off_lt (idx : Nat) :
    (idx_to_block_idx idx).2 < blockCap (idx_to_block_idx idx).1 := by
  obtain ⟨b, he, hl, hr⟩ := idx_to_block_idx_eq idx
  rw [he]
  simp only
  omega

theorem idx_to_block_idx_mono {i j : Nat} (h : i ≤ j) :
    (idx_to_block_idx i).1 ≤ (idx_to_block_idx j).1 := by
  obtain ⟨bi, hei, hli, hri⟩ := idx_to_block_idx_eq i
  obtain ⟨bj, hej, hlj, hrj⟩ := idx_to_block_idx_eq j
  rw [hei, hej]
  simp only
  by_contra hc
  have hblt : bj + 1 ≤ bi := by omega
  have : blockStart bj + blockCap bj ≤ blockStart bi := by
    calc blockStart bj + blockCap bj = blockStart (bj + 1) := (blockStart_succ bj).symm
    _ ≤ blockStart bi := blockStart_mono hblt
  omega

theorem idx_to_block_idx_boundary (k : Nat) :
    idx_to_block_idx (blockStart k) = (k, 0) := by
  have h2 : blockStart k < blockStart k + blockCap k := by
    have hp : 1 ≤ 2 ^ k := Nat.one_le_two_pow
    have : 0 < blockCap k := by
      simp only [blockCap, START_SIZE]
      omega
    omega
  have h := idx_to_block_idx_loc (Nat.le_refl (blockStart k)) h2
  rw [Nat.sub_self] at h
  exact h

theorem reqLoop_succ (base : Nat → Nat) (sz al fuel : Nat) (ctx : SegmentedAllocCtx) :
    reqLoop base sz al (fuel + 1) ctx =
      if ctx.size < next_multiple_of ctx.pos al + next_multiple_of sz al then
        if ctx.cur_block + 1 < MAX_BLOCKS then
          reqLoop base sz al fuel
            { ctx with
              cur_block := ctx.cur_block + 1
              blocks := Function.update ctx.blocks (ctx.cur_block + 1)
                (some (base (ctx.cur_block + 1)))
              block_sizes := Function.update ctx.block_sizes (ctx.cur_block + 1)
                (ctx.size * GROWTH)
              size := ctx.size * GROWTH
              pos := 0 }
        else none
      else
        match ctx.blocks ctx.cur_block with
        | none => none
        | some b => some (b + next_multiple_of ctx.pos al,
            { ctx with pos := next_multiple_of ctx.pos al + next_multiple_of sz al }) :=
  rfl

theorem startedCtx_wf (base : Nat → Nat) : Wf base (startedCtx base) := by
  constructor
  · simp [startedCtx, MAX_BLOCKS]
  · intro i hi
    have h0 : i = 0 := by
      simp only [startedCtx] at hi
      omega
    subst h0
    simp [startedCtx]
  · intro i hi
    simp only [startedCtx]
    rw [Function.update_noteq (by omega)]
  · intro i hi
    have h0 : i = 0 := by
      simp only [startedCtx] at hi
      omega
    subst h0
    simp [startedCtx, MIN_SIZE]
  · intro i hi
    simp only [startedCtx]
    rw [Function.update_noteq (by omega)]
  · simp [startedCtx]
  · simp [startedCtx]

theorem request_of_wf {base : Nat → Nat} {ctx : SegmentedAllocCtx} (sz al : Nat)
    (hwf : Wf base ctx) :
    ctx.request base sz al = reqLoop base sz al MAX_BLOCKS ctx := by
  have h0 := hwf.mapped 0 (Nat.zero_le _)
  simp [SegmentedAllocCtx.request, h0]

theorem request_new_eq (base : Nat → Nat) (sz al : Nat) :
    (SegmentedAllocCtx.new).request base sz al =
      reqLoop base sz al MAX_BLOCKS (startedCtx base) :=
  rfl

/-- Grown-by-one-step context preserves well-formedness. -/
theorem wf_grow {base : Nat → Nat} {ctx : SegmentedAllocCtx}
    (hwf : Wf base ctx) (hcb : ctx.cur_block + 1 < MAX_BLOCKS) :
    Wf base
      { ctx with
        cur_block := ctx.cur_block + 1
        blocks := Function.update ctx.blocks (ctx.cur_block + 1)
          (some (base (ctx.cur_block + 1)))
        block_sizes := Function.update ctx.block_sizes (ctx.cur_block + 1)
          (ctx.size * GROWTH)
        size := ctx.size * GROWTH
        pos := 0 } := by
  have hsz : ctx.size * GROWTH = MIN_SIZE * 2 ^ (ctx.cur_block + 1) := by
    rw [hwf.size_eq, pow_succ, GROWTH, Nat.mul_assoc]
  constructor
  · simpa using hcb
  · intro i hi
    simp only at hi ⊢
    rcases Nat.lt_or_ge i (ctx.cur_block + 1) with hlt | hge
    · rw [Function.update_noteq (by omega)]
      exact hwf.mapped i (by omega)
    · have : i = ctx.cur_block + 1 := by omega
      rw [this, Function.update_same]
  · intro i hi
    simp only at hi ⊢
    rw [Function.update_noteq (by omega)]
    exact hwf.unmapped i (by omega)
  · intro i hi
    simp only at hi ⊢
    rcases Nat.lt_or_ge i (ctx.cur_block + 1) with hlt | hge
    · rw [Function.update_noteq (by omega)]
      exact hwf.sizes i (by omega)
    · have hieq : i = ctx.cur_block + 1 := by omega
      rw [hieq, Function.update_same, hsz]
  · intro i hi
    simp only at hi ⊢
    rw [Function.update_noteq (by omega)]
    exact hwf.sizes_hi i (by omega)
  · simpa using hsz
  · simp

/-- Master characterization of the request loop on well-formed arenas. -/
theorem reqLoop_spec {base : Nat → Nat} {sz al : Nat} (hal : 0 < al) :
    ∀ fuel (ctx : SegmentedAllocCtx) (a : Nat) (ctx' : SegmentedAllocCtx),
      Wf base ctx → reqLoop base sz al fuel ctx = some (a, ctx') →
      Wf base ctx' ∧ ctx.cur_block ≤ ctx'.cur_block ∧
      ∃ off, a = base ctx'.cur_block + off ∧ al ∣ off ∧
        ctx'.pos = off + next_multiple_of sz al ∧
        ctx'.pos ≤ ctx'.size ∧
        (ctx'.cur_block = ctx.cur_block → off = next_multiple_of ctx.pos al) ∧
        (ctx.cur_block < ctx'.cur_block → off = 0) ∧
        (ctx.size < next_multiple_of ctx.pos al + next_multiple_of sz al →
          ctx.cur_block < ctx'.cur_block) := by
  intro fuel
  induction fuel with
  | zero =>
    intro ctx a ctx' _ h
    simp [reqLoop] at h
  | succ fuel ih =>
    intro ctx a ctx' hwf h
    rw [reqLoop_succ] at h
    by_cases hov : ctx.size < next_multiple_of ctx.pos al + next_multiple_of sz al
    · rw [if_pos hov] at h
      by_cases hcb : ctx.cur_block + 1 < MAX_BLOCKS
      · rw [if_pos hcb] at h
        have hwf2 := wf_grow hwf hcb
        obtain ⟨hwf', hle, off, ha, hdvd, hpos, hple, hserve, hzero, _⟩ :=
          ih _ _ _ hwf2 h
        simp only at hle hserve hzero
        refine ⟨hwf', by omega, off, ha, hdvd, hpos, hple, ?_, ?_, fun _ => by omega⟩
        · intro hc
          omega
        · intro _
          rcases Nat.eq_or_lt_of_le hle with heq | hlt
          · have := hserve heq.symm
            simpa [next_multiple_of_zero_left] using this
          · exact hzero hlt
      · rw [if_neg hcb] at h
        exact absurd h (by simp)
    · rw [if_neg hov] at h
      have hb := hwf.mapped ctx.cur_block (Nat.le_refl _)
      rw [hb] at h
      simp only [Option.some.injEq, Prod.mk.injEq] at h
      obtain ⟨ha, hctx⟩ := h
      subst hctx
      refine ⟨?_, Nat.le_refl _, next_multiple_of ctx.pos al, ha.symm,
        dvd_next_multiple_of hal _, rfl, by simpa using Nat.le_of_not_lt hov,
        fun _ => rfl, fun hc => absurd hc (by simp), fun hc => absurd hc hov⟩
      constructor
      · exact hwf.cb_lt
      · exact hwf.mapped
      · exact hwf.unmapped
      · exact hwf.sizes
      · exact hwf.sizes_hi
      · exact hwf.size_eq
      · simpa using Nat.le_of_not_lt hov

/-- C4: an overflowing request grows the arena and is served whole from the
new active block; block capacities are the doubling sequence
`MIN_SIZE * 2 ^ i`. -/
theorem c4_arena_growth :
    (∀ (base : Nat → Nat) (sz al : Nat) (ctx ctx' : SegmentedAllocCtx) (a : Nat),
      0 < al → Wf base ctx →
      ctx.size < next_multiple_of ctx.pos al + next_multiple_of sz al →
      ctx.request base sz al = some (a, ctx') →
      ctx.cur_block < ctx'.cur_block ∧
      (∀ i, 1 ≤ i → i ≤ ctx'.cur_block →
        ctx'.block_sizes i = GROWTH * ctx'.block_sizes (i - 1)) ∧
      (∀ i, i ≤ ctx'.cur_block → ctx'.block_sizes i = MIN_SIZE * 2 ^ i) ∧
      ctx'.blocks ctx'.cur_block = some (base ctx'.cur_block) ∧
      a = base ctx'.cur_block ∧
      a + next_multiple_of sz al ≤ base ctx'.cur_block + ctx'.block_sizes ctx'.cur_block ∧
      ctx'.pos = next_multiple_of sz al) ∧
    ((SegmentedAllocCtx.new).request demoBase 5000 8).map
        (fun p => (p.1, p.2.cur_block, p.2.block_sizes 0, p.2.block_sizes 1, p.2.pos)) =
      some (demoBase 1, 1, 4096, 8192, 5000) := by
  constructor
  · intro base sz al ctx ctx' a hal hwf hov h
    rw [request_of_wf sz al hwf] at h
    obtain ⟨hwf', hle, off, ha, _, hpos, hple, _, hzero, hovlt⟩ :=
      reqLoop_spec hal MAX_BLOCKS ctx a ctx' hwf h
    have hlt : ctx.cur_block < ctx'.cur_block := hovlt hov
    have hoff : off = 0 := hzero hlt
    subst hoff
    have hsz' := hwf'.sizes ctx'.cur_block (Nat.le_refl _)
    refine ⟨hlt, ?_, hwf'.sizes, hwf'.mapped _ (Nat.le_refl _), by omega, ?_, by omega⟩
    · intro i h1 h2
      have hi := hwf'.sizes i h2
      have hi' := hwf'.sizes (i - 1) (by omega)
      rw [hi, hi', GROWTH]
      have : 2 ^ i = 2 * 2 ^ (i - 1) := by
        conv_lhs => rw [show i = (i - 1) + 1 by omega]
        rw [pow_succ]
        ring
      rw [this]
      ring
    · have : ctx'.pos ≤ ctx'.block_sizes ctx'.cur_block := by
        rw [hsz', ← hwf'.size_eq]
        exact hple
      omega
  · decide

theorem c4_arena_growth_witness :
    (startedCtx demoBase).cur_block < c4ctx.cur_block ∧
    c4ctx.block_sizes 1 = GROWTH * c4ctx.block_sizes 0 ∧
    c4ctx.block_sizes 1 = MIN_SIZE * 2 ^ 1 ∧
    c4ctx.blocks 1 = some (demoBase 1) ∧
    demoBase 1 + next_multiple_of 5000 8 ≤ demoBase 1 + c4ctx.block_sizes 1 ∧
    c4ctx.pos = next_multiple_of 5000 8 := by
  have h := c4_arena_growth.1 demoBase 5000 8 (startedCtx demoBase) c4ctx (demoBase 1)
    (by decide) (startedCtx_wf demoBase) (by decide) (by rfl)
  obtain ⟨h1, h2, h3, h4, _, h6, h7⟩ := h
  exact ⟨h1, h2 1 (by decide) (by decide), h3 1 (by decide), h4, h6, h7⟩

/-- One served request on a well-formed arena: the address is aligned (for
alignments dividing the page size), lands inside the mapped blocks, and its
range is disjoint from every previously served range. -/
theorem request_step {base : Nat → Nat} {ctx ctx' : SegmentedAllocCtx} {sz al a : Nat}
    (hwf : Wf base ctx) (hdvd : al ∣ MIN_SIZE)
    (halign : ∀ i, i < MAX_BLOCKS → MIN_SIZE ∣ base i)
    (hdisj : ∀ i j, i < j → j < MAX_BLOCKS →
      base i + MIN_SIZE * 2 ^ i ≤ base j ∨ base j + MIN_SIZE * 2 ^ j ≤ base i)
    (h : ctx.request base sz al = some (a, ctx')) :
    Wf base ctx' ∧ al ∣ a ∧ inBlocks base ctx' a sz ∧
    ∀ a₀ s₀, inBlocks base ctx a₀ s₀ →
      inBlocks base ctx' a₀ s₀ ∧ (a + sz ≤ a₀ ∨ a₀ + s₀ ≤ a) := by
  have hal : 0 < al := by
    rcases Nat.eq_zero_or_pos al with h0 | h0
    · subst h0
      have := Nat.eq_zero_of_zero_dvd hdvd
      simp [MIN_SIZE] at this
    · exact h0
  rw [request_of_wf sz al hwf] at h
  obtain ⟨hwf', hle, off, ha, hoffdvd, hpos, hple, hserve, hzero, _⟩ :=
    reqLoop_spec hal MAX_BLOCKS ctx a ctx' hwf h
  have hszpad : sz ≤ next_multiple_of sz al := next_multiple_of_le sz al
  have hA : a + sz ≤ base ctx'.cur_block + MIN_SIZE * 2 ^ ctx'.cur_block := by
    have h1 : a + sz ≤ base ctx'.cur_block + ctx'.pos := by omega
    have h2 : ctx'.size = MIN_SIZE * 2 ^ ctx'.cur_block := hwf'.size_eq
    omega
  have hApos : a + sz ≤ base ctx'.cur_block + ctx'.pos := by omega
  refine ⟨hwf', ?_, ?_, ?_⟩
  · rw [ha]
    exact Nat.dvd_add (dvd_trans hdvd (halign _ hwf'.cb_lt)) hoffdvd
  · exact ⟨ctx'.cur_block, Nat.le_refl _, by omega, hA, fun _ => hApos⟩
  · intro a₀ s₀ hin
    obtain ⟨i₀, hi₀, hb1, hb2, hb3⟩ := hin
    rcases Nat.eq_or_lt_of_le hle with heq | hlt
    · -- no growth: the active block and cursor only advanced
      have hoff : off = next_multiple_of ctx.pos al := hserve heq.symm
      have hposoff : ctx.pos ≤ off := by
        rw [hoff]
        exact next_multiple_of_le _ _
      constructor
      · refine ⟨i₀, by omega, hb1, hb2, ?_⟩
        intro hi₀eq
        have : i₀ = ctx.cur_block := by omega
        have h3 := hb3 this
        have : a₀ + s₀ ≤ base i₀ + off := by omega
        omega
      · by_cases hieq : i₀ = ctx'.cur_block
        · right
          subst hieq
          have h3 := hb3 (by omega)
          omega
        · have hilt : i₀ < ctx'.cur_block := by omega
          rcases hdisj i₀ ctx'.cur_block hilt hwf'.cb_lt with hd | hd
          · right
            omega
          · left
            omega
    · -- growth: the request went to a fresh block
      constructor
      · refine ⟨i₀, by omega, hb1, hb2, ?_⟩
        intro hi₀eq
        omega
      · have hilt : i₀ < ctx'.cur_block := by omega
        rcases hdisj i₀ ctx'.cur_block hilt hwf'.cb_lt with hd | hd
        · right
          have hoff : off = 0 := hzero hlt
          omega
        · left
          omega

/-- Invariant-carrying induction over a request sequence. -/
theorem requestAll_spec {base : Nat → Nat}
    (halign : ∀ i, i < MAX_BLOCKS → MIN_SIZE ∣ base i)
    (hdisj : ∀ i j, i < j → j < MAX_BLOCKS →
      base i + MIN_SIZE * 2 ^ i ≤ base j ∨ base j + MIN_SIZE * 2 ^ j ≤ base i) :
    ∀ (reqs : List (Nat × Nat)) (ctx : SegmentedAllocCtx)
      (out : List (Nat × Nat × Nat)) (ctxF : SegmentedAllocCtx),
      Wf base ctx → (∀ r ∈ reqs, r.2 ∣ MIN_SIZE) →
      requestAll base ctx reqs = some (out, ctxF) →
      Wf base ctxF ∧
      (∀ r ∈ out, r.2.2 ∣ r.1 ∧ inBlocks base ctxF r.1 r.2.1) ∧
      List.Pairwise (fun p q => p.1 + p.2.1 ≤ q.1 ∨ q.1 + q.2.1 ≤ p.1) out ∧
      (∀ a₀ s₀, inBlocks base ctx a₀ s₀ →
        inBlocks base ctxF a₀ s₀ ∧
        ∀ r ∈ out, r.1 + r.2.1 ≤ a₀ ∨ a₀ + s₀ ≤ r.1) := by
  intro reqs
  induction reqs with
  | nil =>
    intro ctx out ctxF hwf _ h
    simp only [requestAll, Option.some.injEq, Prod.mk.injEq] at h
    obtain ⟨ho, hc⟩ := h
    subst ho
    subst hc
    exact ⟨hwf, by simp, by simp, fun a₀ s₀ hin => ⟨hin, by simp⟩⟩
  | cons r rest ih =>
    intro ctx out ctxF hwf hreqs h
    obtain ⟨sz, al⟩ := r
    rcases hr : ctx.request base sz al with _ | ⟨a, ctx1⟩
    · simp only [requestAll, hr] at h
      exact absurd h (by simp)
    · simp only [requestAll, hr] at h
      rcases hrest : requestAll base ctx1 rest with _ | ⟨l, c⟩
      · simp only [hrest] at h
        exact absurd h (by simp)
      · simp only [hrest, Option.some.injEq, Prod.mk.injEq] at h
        obtain ⟨ho, hc⟩ := h
        subst ho
        subst hc
        have haldvd : al ∣ MIN_SIZE := hreqs (sz, al) (List.mem_cons_self _ _)
        obtain ⟨hwf1, haldvd_a, hin1, htrans1⟩ :=
          request_step hwf haldvd halign hdisj hr
        have hreqs' : ∀ r ∈ rest, r.2 ∣ MIN_SIZE := fun r hr' =>
          hreqs r (List.mem_cons_of_mem _ hr')
        obtain ⟨hwfF, houtF, hpwF, htransF⟩ := ih ctx1 l c hwf1 hreqs' hrest
        obtain ⟨hinF, hdisjF⟩ := htransF a sz hin1
        refine ⟨hwfF, ?_, ?_, ?_⟩
        · intro q hq
          rcases List.mem_cons.mp hq with he | ht
          · subst he
            exact ⟨haldvd_a, hinF⟩
          · exact houtF q ht
        · refine List.Pairwise.cons ?_ hpwF
          intro q hq
          rcases hdisjF q hq with hd | hd
          · right
            exact hd
          · left
            exact hd
        · intro a₀ s₀ hin
          obtain ⟨hin1', hd1⟩ := htrans1 a₀ s₀ hin
          obtain ⟨hinF', hdl⟩ := htransF a₀ s₀ hin1'
          refine ⟨hinF', ?_⟩
          intro q hq
          rcases List.mem_cons.mp hq with he | ht
          · subst he
            simpa using hd1
          · exact hdl q ht

theorem demoBase_align : ∀ i, i < MAX_BLOCKS → MIN_SIZE ∣ demoBase i := by
  intro i _
  refine ⟨2 ^ 58 * i, ?_⟩
  show demoBase i = MIN_SIZE * (2 ^ 58 * i)
  simp only [demoBase, MIN_SIZE]
  rw [← Nat.mul_assoc]
  norm_num

theorem demoBase_disjoint : ∀ i j, i < j → j < MAX_BLOCKS →
    demoBase i + MIN_SIZE * 2 ^ i ≤ demoBase j ∨
    demoBase j + MIN_SIZE * 2 ^ j ≤ demoBase i := by
  intro i j hij hj
  left
  have h1 : MIN_SIZE * 2 ^ i ≤ 2 ^ 70 := by
    have he : MIN_SIZE * 2 ^ i = 2 ^ (12 + i) := by
      rw [pow_add, MIN_SIZE]
      norm_num
    rw [he]
    refine Nat.pow_le_pow_right (by norm_num) ?_
    simp only [MAX_BLOCKS] at hj
    omega
  have h2 : 2 ^ 70 * (i + 1) ≤ 2 ^ 70 * j := Nat.mul_le_mul_left _ (by omega)
  rw [Nat.mul_add, Nat.mul_one] at h2
  simp only [demoBase]
  omega

theorem requestAll_new_cons (base : Nat → Nat) (sz al : Nat) (rest : List (Nat × Nat)) :
    requestAll base SegmentedAllocCtx.new ((sz, al) :: rest) =
      requestAll base (startedCtx base) ((sz, al) :: rest) := by
  simp only [requestAll]
  rw [request_new_eq, request_of_wf sz al (startedCtx_wf base)]

/-- C5 (amended): for any finite sequence of requests of non-zero size and
power-of-two alignment dividing the 4096-byte page size, run against a
fresh arena whose page mappings are page-aligned and pairwise disjoint, the
returned `[address, address + size)` ranges are pairwise non-overlapping
and every returned address is a multiple of its request's alignment. -/
theorem c5_requests_disjoint_aligned {base : Nat → Nat} {reqs : List (Nat × Nat)}
    {out : List (Nat × Nat × Nat)} {ctxF : SegmentedAllocCtx}
    (halign : ∀ i, i < MAX_BLOCKS → MIN_SIZE ∣ base i)
    (hdisj : ∀ i j, i < j → j < MAX_BLOCKS →
      base i + MIN_SIZE * 2 ^ i ≤ base j ∨ base j + MIN_SIZE * 2 ^ j ≤ base i)
    (hreqs : ∀ r ∈ reqs, 0 < r.1 ∧ r.2 ∣ MIN_SIZE)
    (h : requestAll base SegmentedAllocCtx.new reqs = some (out, ctxF)) :
    (∀ r ∈ out, r.2.2 ∣ r.1) ∧
    List.Pairwise (fun p q => p.1 + p.2.1 ≤ q.1 ∨ q.1 + q.2.1 ≤ p.1) out := by
  cases reqs with
  | nil =>
    simp only [requestAll, Option.some.injEq, Prod.mk.injEq] at h
    obtain ⟨ho, _⟩ := h
    subst ho
    simp
  | cons r rest =>
    obtain ⟨sz, al⟩ := r
    rw [requestAll_new_cons] at h
    obtain ⟨_, houtF, hpw, _⟩ := requestAll_spec halign hdisj ((sz, al) :: rest)
      (startedCtx base) out ctxF (startedCtx_wf base)
      (fun q hq => (hreqs q hq).2) h
    exact ⟨fun q hq => (houtF q hq).1, hpw⟩

/-- C5 counterexample: on a fresh arena whose page mappings are page-aligned
and disjoint (`cbase`), the single request `(8 bytes, align 8192 = 2 ^ 13)`
is served at an address whose remainder modulo its alignment is 4096, not
0 — the claim's unrestricted alignment guarantee fails for alignments above
the page size. -/
theorem c5_counterexample :
    (requestAll cbase SegmentedAllocCtx.new [(8, 8192)]).map
        (fun p => p.1.map fun r => r.1 % r.2.2) = some [4096] ∧
    (8192 : Nat) = 2 ^ 13 ∧
    cbase 0 % MIN_SIZE = 0 ∧ cbase 1 % MIN_SIZE = 0 ∧
    cbase 0 + MIN_SIZE * 2 ^ 0 ≤ cbase 1 :=
  ⟨by decide, by decide, by decide, by decide, by decide⟩

theorem c5_requests_disjoint_aligned_witness :
    (requestAll demoBase SegmentedAllocCtx.new [(16, 8), (32, 32)]).map Prod.fst =
      some [(0, 16, 8), (32, 32, 32)] ∧
    ((8 : Nat) ∣ 0) ∧ ((32 : Nat) ∣ 32) ∧
    ((0 : Nat) + 16 ≤ 32 ∨ (32 : Nat) + 32 ≤ 0) := by
  have hrun : requestAll demoBase SegmentedAllocCtx.new [(16, 8), (32, 32)] =
      some ([(0, 16, 8), (32, 32, 32)], c5ctx) := by rfl
  have h := c5_requests_disjoint_aligned demoBase_align demoBase_disjoint
    (by decide) hrun
  refine ⟨by rw [hrun]; rfl, ?_, ?_, ?_⟩
  · exact h.1 (0, 16, 8) (List.mem_cons_self _ _)
  · exact h.1 (32, 32, 32) (by simp)
  · exact (List.pairwise_cons.mp h.2).1 (32, 32, 32) (by simp)

/-- The bulk-release pass on a well-formed arena walks exactly the mapped
slots `i .. cur_block` in order. -/
theorem freeGo_spec {base : Nat → Nat} {ctx : SegmentedAllocCtx} (hwf : Wf base ctx) :
    ∀ fuel i, i ≤ ctx.cur_block + 1 → ctx.cur_block + 1 ≤ i + fuel →
      freeGo ctx i fuel = (List.range (ctx.cur_block + 1 - i)).map
        (fun k => (base (i + k), MIN_SIZE * 2 ^ (i + k))) := by
  intro fuel
  induction fuel with
  | zero =>
    intro i hi hf
    have : i = ctx.cur_block + 1 := by omega
    subst this
    simp [freeGo]
  | succ fuel ih =>
    intro i hi hf
    by_cases hieq : i = ctx.cur_block + 1
    · subst hieq
      have hs := hwf.sizes_hi (ctx.cur_block + 1) (by omega)
      simp [freeGo, hs]
    · have hile : i ≤ ctx.cur_block := by omega
      have hsz := hwf.sizes i hile
      have hb := hwf.mapped i hile
      have hszpos : ctx.block_sizes i ≠ 0 := by
        rw [hsz]
        have h1 : 1 ≤ 2 ^ i := Nat.one_le_two_pow
        simp only [MIN_SIZE]
        omega
      have hrec := ih (i + 1) (by omega) (by omega)
      have hn : ctx.cur_block + 1 - i = (ctx.cur_block + 1 - (i + 1)) + 1 := by omega
      simp only [freeGo]
      rw [if_neg hszpos]
      simp only [hb]
      rw [hrec, hsz, hn, List.range_succ_eq_map, List.map_cons, List.map_map]
      simp only [Nat.add_zero]
      congr 1
      refine List.map_congr_left ?_
      intro k _
      simp only [Function.comp]
      have he : i + Nat.succ k = i + 1 + k := by omega
      rw [he]

/-- C9: dropping a list triggers one bulk release of its arena; on a
well-formed arena the single pass issues exactly one `munmap` per mapped
block — slot `i` at its oracle address with its full mapped length — and
nothing else. -/
theorem c9_drop_releases_all {T : Type} {baseF : Nat → Nat} (s : SegmentedList T)
    (hwf : Wf baseF s.allocator) :
    s.dropCalls = (List.range (s.allocator.cur_block + 1)).map
      (fun i => (baseF i, MIN_SIZE * 2 ^ i)) ∧
    s.dropCalls.Nodup ∧
    (∀ i a, s.allocator.blocks i = some a →
      @List.count _ instBEqOfDecidableEq (a, s.allocator.block_sizes i)
        s.dropCalls = 1) := by
  have hfree : s.dropCalls = (List.range (s.allocator.cur_block + 1)).map
      (fun i => (baseF i, MIN_SIZE * 2 ^ i)) := by
    have h := freeGo_spec hwf MAX_BLOCKS 0 (by omega)
      (by have hcb := hwf.cb_lt; omega)
    simp only [SegmentedList.dropCalls, SegmentedAllocCtx.free, h, Nat.sub_zero,
      Nat.zero_add]
  have hinj : Function.Injective (fun i => (baseF i, MIN_SIZE * 2 ^ i)) := by
    intro x y hxy
    have h2 : MIN_SIZE * 2 ^ x = MIN_SIZE * 2 ^ y := congrArg Prod.snd hxy
    have : (2 : Nat) ^ x = 2 ^ y := by
      have : (0 : Nat) < MIN_SIZE := by simp [MIN_SIZE]
      exact Nat.eq_of_mul_eq_mul_left this h2
    exact Nat.pow_right_injective (by omega) this
  have hnodup : s.dropCalls.Nodup := by
    rw [hfree]
    exact (List.nodup_range _).map hinj
  refine ⟨hfree, hnodup, ?_⟩
  intro i a hia
  have hile : i ≤ s.allocator.cur_block := by
    by_contra hc
    rw [hwf.unmapped i (by omega)] at hia
    exact Option.noConfusion hia
  have ha : a = baseF i := by
    have := hwf.mapped i hile
    rw [
      this] at hia
    exact (Option.some.injEq _ _ ▸ hia).symm
  have hmem : (a, s.allocator.block_sizes i) ∈ s.dropCalls := by
    rw [hfree, ha, hwf.sizes i hile]
    exact List.mem_map.mpr ⟨i, List.mem_range.mpr (by omega), rfl⟩
  exact List.count_eq_one_of_mem hnodup hmem

theorem c9_drop_releases_all_witness :
    c9list.dropCalls = [(demoBase 0, MIN_SIZE * 2 ^ 0)] ∧
    c9list.dropCalls.Nodup ∧
    @List.count _ instBEqOfDecidableEq (demoBase 0, c9list.allocator.block_sizes 0)
      c9list.dropCalls = 1 := by
  have h := c9_drop_releases_all c9list (startedCtx_wf demoBase)
  refine ⟨?_, h.2.1, h.2.2 0 (demoBase 0) (by decide)⟩
  rw [h.1]
  decide

theorem blockCap_pos (b : Nat) : 0 < blockCap b := by
  have h : 1 ≤ 2 ^ b := Nat.one_le_two_pow
  simp only [blockCap, START_SIZE]
  omega

/-- Complete case analysis of a successful `push`: the target block index is
in range, the length grows by one, and the block table is the old one with
the target slot written — on top of either the preexisting block (same
pointer, same other slots) or a freshly allocated all-uninitialized one. -/
theorem push_cases {T : Type} {sizeT alignT : Nat} {base : Nat → Nat}
    {s s' : SegmentedList T} {v : T}
    (h : s.push sizeT alignT base v = some s') :
    (idx_to_block_idx s.len).1 < BLOCK_COUNT ∧
    s'.len = s.len + 1 ∧
    ∃ d ptr,
      s'.blocks = Function.update s.blocks (idx_to_block_idx s.len).1
        (some { ptr := ptr,
                data := Function.update d (idx_to_block_idx s.len).2 (some v) }) ∧
      ((∃ blk0, s.blocks (idx_to_block_idx s.len).1 = some blk0 ∧
          d = blk0.data ∧ ptr = blk0.ptr ∧
          s'.block_lengths = s.block_lengths) ∨
        (s.blocks (idx_to_block_idx s.len).1 = none ∧ d = (fun _ => none) ∧
          s'.block_lengths = Function.update s.block_lengths
            (idx_to_block_idx s.len).1 (blockCap (idx_to_block_idx s.len).1))) := by
  by_cases hB : (idx_to_block_idx s.len).1 < BLOCK_COUNT
  · simp only [SegmentedList.push, if_pos hB] at h
    rcases hsb : s.blocks (idx_to_block_idx s.len).1 with _ | blk0
    · -- fresh block needed
      simp only [hsb, SegmentedList.alloc_block] at h
      by_cases hl : layoutValid (START_SIZE * 2 ^ (idx_to_block_idx s.len).1 * sizeT) alignT
      · simp only [if_pos hl] at h
        rcases hreq : s.allocator.request base
            (START_SIZE * 2 ^ (idx_to_block_idx s.len).1 * sizeT) alignT with _ | ⟨ptr, actx⟩
        · rw [hreq] at h
          exact absurd h (by simp)
        · rw [hreq] at h
          simp only [Function.update_same, Option.some.injEq] at h
          subst h
          refine ⟨hB, rfl, (fun _ => none), ptr, ?_, Or.inr ⟨rfl, rfl, rfl⟩⟩
          exact Function.update_idem _ _ _
      · simp only [if_neg hl] at h
        exact absurd h (by simp)
    · -- block already allocated
      simp only [hsb, Option.some.injEq] at h
      subst h
      exact ⟨hB, rfl, blk0.data, blk0.ptr, rfl, Or.inl ⟨blk0, rfl, rfl, rfl, rfl⟩⟩
  · simp only [SegmentedList.push, if_neg hB] at h
    exact absurd h (by simp)

/-- Every block strictly below the block of `len` is allocated in a
reachable state. -/
theorem blocks_lt_allocated {T : Type} {s : SegmentedList T} {vs : List T}
    (hinv : ListInv s vs) {b : Nat}
    (hb : b < (idx_to_block_idx s.len).1) : (s.blocks b).isSome := by
  obtain ⟨B, he, hl, _⟩ := idx_to_block_idx_eq s.len
  rw [he] at hb
  simp only at hb
  have h1 : blockStart (b + 1) ≤ blockStart B := blockStart_mono (by omega)
  have h2 : blockStart b < blockStart (b + 1) := by
    rw [blockStart_succ]
    have := blockCap_pos b
    omega
  have hidx : blockStart b < vs.length := by
    rw [← hinv.len_eq]
    omega
  obtain ⟨blk, hsb, _⟩ := hinv.init (blockStart b) hidx
  rw [idx_to_block_idx_boundary b] at hsb
  simp only at hsb
  rw [hsb]
  rfl

/-- `push` preserves the reachable-state invariant, appending the pushed
value. -/
theorem push_inv {T : Type} {sizeT alignT : Nat} {base : Nat → Nat}
    {s s' : SegmentedList T} {vs : List T} {v : T}
    (hinv : ListInv s vs) (h : s.push sizeT alignT base v = some s') :
    ListInv s' (vs ++ [v]) := by
  obtain ⟨hB, hlen, d, ptr, hblocks, hcase⟩ := push_cases h
  have hlen_eq := hinv.len_eq
  have hne_of_ne : ∀ i, i ≠ s.len →
      (idx_to_block_idx i).1 = (idx_to_block_idx s.len).1 →
      (idx_to_block_idx i).2 ≠ (idx_to_block_idx s.len).2 := by
    intro i hi h1 h2
    exact hi (idx_to_block_idx_injective (Prod.ext_iff.mpr ⟨h1, h2⟩))
  constructor
  case len_eq =>
    simp [hlen, hlen_eq]
  case hi_none =>
    intro b hb
    rw [hblocks, Function.update_noteq (by omega)]
    exact hinv.hi_none b hb
  case alloc_len =>
    intro b blk hsb
    by_cases hbB : b = (idx_to_block_idx s.len).1
    · subst hbB
      rcases hcase with ⟨blk0, hs0, _, _, hbl⟩ | ⟨_, _, hbl⟩
      · rw [hbl]
        exact hinv.alloc_len _ blk0 hs0
      · rw [hbl, Function.update_same]
    · rw [hblocks, Function.update_noteq hbB] at hsb
      have hal := hinv.alloc_len b blk hsb
      rcases hcase with ⟨_, _, _, _, hbl⟩ | ⟨_, _, hbl⟩
      · rw [hbl]
        exact hal
      · rw [hbl, Function.update_noteq hbB]
        exact hal
  case unalloc_len =>
    intro b hsb
    by_cases hbB : b = (idx_to_block_idx s.len).1
    · subst hbB
      rw [hblocks, Function.update_same] at hsb
      exact absurd hsb (by simp)
    · rw [hblocks, Function.update_noteq hbB] at hsb
      have hal := hinv.unalloc_len b hsb
      rcases hcase with ⟨_, _, _, _, hbl⟩ | ⟨_, _, hbl⟩
      · rw [hbl]
        exact hal
      · rw [hbl, Function.update_noteq hbB]
        exact hal
  case down =>
    intro b b' hle hsome
    by_cases hb'B : b' = (idx_to_block_idx s.len).1
    · subst hb'B
      rw [hblocks, Function.update_same]
      rfl
    · rw [hblocks, Function.update_noteq hb'B]
      by_cases hbB : b = (idx_to_block_idx s.len).1
      · have hb'lt : b' < (idx_to_block_idx s.len).1 := by omega
        exact blocks_lt_allocated hinv hb'lt
      · rw [hblocks, Function.update_noteq hbB] at hsome
        exact hinv.down b b' hle hsome
  case init =>
    intro i hi
    have hi' : i < vs.length + 1 := by simpa using hi
    have hget : ∀ (hil : i < vs.length), (vs ++ [v]).get ⟨i, hi⟩ = vs.get ⟨i, hil⟩ := by
      intro hil
      simp [List.get_eq_getElem, List.getElem_append_left, hil]
    by_cases hilen : i < vs.length
    · obtain ⟨blk, hsb, hdata⟩ := hinv.init i hilen
      have hislt : i ≠ s.len := by omega
      by_cases hbB : (idx_to_block_idx i).1 = (idx_to_block_idx s.len).1
      · rcases hcase with ⟨blk0, hs0, hd, hp, _⟩ | ⟨hs0, _, _⟩
        · have hs' : s'.blocks (idx_to_block_idx i).1 =
              some { ptr := ptr, data := Function.update d (idx_to_block_idx s.len).2 (some v) } := by
            rw [hblocks, hbB, Function.update_same]
          refine ⟨_, hs', ?_⟩
          simp only
          rw [Function.update_noteq (hne_of_ne i hislt hbB), hd]
          rw [hbB, hs0] at hsb
          have hblk : blk0 = blk := by
            injection hsb
          rw [hblk, hdata, hget hilen]
        · rw [hbB, hs0] at hsb
          exact absurd hsb (by simp)
      · refine ⟨blk, ?_, ?_⟩
        · rw [hblocks, Function.update_noteq hbB]
          exact hsb
        · rw [hdata, hget hilen]
    · have hieq : i = vs.length := by omega
      subst hieq
      have hlidx : vs.length = s.len := hlen_eq.symm
      have hs' : s'.blocks (idx_to_block_idx vs.length).1 =
          some { ptr := ptr, data := Function.update d (idx_to_block_idx s.len).2 (some v) } := by
        rw [hblocks, hlidx, Function.update_same]
      refine ⟨_, hs', ?_⟩
      simp only
      have hoff : (idx_to_block_idx vs.length).2 = (idx_to_block_idx s.len).2 := by
        rw [hlidx]
      rw [hoff, Function.update_same]
      simp [List.get_eq_getElem]
  case uninit =>
    intro i hile blk hsb
    have hile' : vs.length + 1 ≤ i := by simpa using hile
    have hislt : i ≠ s.len := by omega
    by_cases hbB : (idx_to_block_idx i).1 = (idx_to_block_idx s.len).1
    · rw [hblocks, hbB, Function.update_same] at hsb
      have hblk :
          ({ ptr := ptr, data := Function.update d (idx_to_block_idx s.len).2 (some v) } : Block T) = blk := by
        injection hsb
      rw [← hblk]
      simp only
      rw [Function.update_noteq (hne_of_ne i hislt hbB)]
      rcases hcase with ⟨blk0, hs0, hd, _, _⟩ | ⟨_, hd, _⟩
      · rw [hd]
        exact hinv.uninit i (by omega) blk0 (hbB ▸ hs0)
      · rw [hd]
    · rw [hblocks, Function.update_noteq hbB] at hsb
      exact hinv.uninit i (by omega) blk hsb

/-- `push` never moves an existing block pointer and never rewrites an
already-written slot. -/
theorem push_frame {T : Type} {sizeT alignT : Nat} {base : Nat → Nat}
    {s s' : SegmentedList T} {vs : List T} {v : T}
    (hinv : ListInv s vs) (h : s.push sizeT alignT base v = some s') :
    ∀ b blk, s.blocks b = some blk → ∃ blk', s'.blocks b = some blk' ∧
      blk'.ptr = blk.ptr ∧ ∀ o x, blk.data o = some x → blk'.data o = some x := by
  obtain ⟨hB, hlen, d, ptr, hblocks, hcase⟩ := push_cases h
  intro b blk hsb
  by_cases hbB : b = (idx_to_block_idx s.len).1
  · subst hbB
    rcases hcase with ⟨blk0, hs0, hd, hp, _⟩ | ⟨hs0, _, _⟩
    · have hblk : blk0 = blk := by
        rw [hs0] at hsb
        injection hsb
      refine ⟨_, by rw [hblocks, Function.update_same], by simp [hp, hblk], ?_⟩
      intro o x hox
      simp only
      by_cases ho : o = (idx_to_block_idx s.len).2
      · subst ho
        have := hinv.uninit s.len (Nat.le_of_eq hinv.len_eq.symm) blk hsb
        rw [this] at hox
        exact absurd hox (by simp)
      · rw [Function.update_noteq ho, hd, hblk]
        exact hox
    · rw [hs0] at hsb
      exact absurd hsb (by simp)
  · refine ⟨blk, ?_, rfl, fun o x hox => hox⟩
    rw [hblocks, Function.update_noteq hbB]
    exact hsb

theorem foldl_push_none {T : Type} (sizeT alignT : Nat) (base : Nat → Nat)
    (ws : List T) :
    List.foldl (fun acc v => acc.bind fun st => SegmentedList.push sizeT alignT base st v)
      (none : Option (SegmentedList T)) ws = none := by
  induction ws with
  | nil => rfl
  | cons w ws ih =>
    simp only [List.foldl_cons, Option.none_bind]
    exact ih

theorem pushAll_cons {T : Type} (sizeT alignT : Nat) (base : Nat → Nat)
    (s : SegmentedList T) (w : T) (ws : List T) :
    pushAll sizeT alignT base s (w :: ws) =
      (s.push sizeT alignT base w).bind fun s1 => pushAll sizeT alignT base s1 ws := by
  cases hp : s.push sizeT alignT base w with
  | none => simp [pushAll, List.foldl_cons, hp, foldl_push_none]
  | some s1 => simp [pushAll, List.foldl_cons, hp]

theorem pushAll_inv {T : Type} {sizeT alignT : Nat} {base : Nat → Nat} :
    ∀ {ws : List T} {s s' : SegmentedList T} {vs : List T},
      ListInv s vs → pushAll sizeT alignT base s ws = some s' →
      ListInv s' (vs ++ ws) := by
  intro ws
  induction ws with
  | nil =>
    intro s s' vs hinv h
    simp only [pushAll, List.foldl_nil, Option.some.injEq] at h
    subst h
    simpa using hinv
  | cons w ws ih =>
    intro s s' vs hinv h
    rw [pushAll_cons] at h
    cases hp : s.push sizeT alignT base w with
    | none =>
      rw [hp] at h
      exact absurd h (by simp)
    | some s1 =>
      rw [hp] at h
      simp only [Option.some_bind] at h
      have := ih (push_inv hinv hp) h
      simpa [List.append_assoc] using this

theorem pushAll_frame {T : Type} {sizeT alignT : Nat} {base : Nat → Nat} :
    ∀ {ws : List T} {s s' : SegmentedList T} {vs : List T},
      ListInv s vs → pushAll sizeT alignT base s ws = some s' →
      ∀ b blk, s.blocks b = some blk → ∃ blk', s'.blocks b = some blk' ∧
        blk'.ptr = blk.ptr ∧ ∀ o x, blk.data o = some x → blk'.data o = some x := by
  intro ws
  induction ws with
  | nil =>
    intro s s' vs _ h b blk hsb
    simp only [pushAll, List.foldl_nil, Option.some.injEq] at h
    subst h
    exact ⟨blk, hsb, rfl, fun _ _ hx => hx⟩
  | cons w ws ih =>
    intro s s' vs hinv h b blk hsb
    rw [pushAll_cons] at h
    cases hp : s.push sizeT alignT base w with
    | none =>
      rw [hp] at h
      exact absurd h (by simp)
    | some s1 =>
      rw [hp] at h
      simp only [Option.some_bind] at h
      obtain ⟨blk1, hsb1, hptr1, hdata1⟩ := push_frame hinv hp b blk hsb
      obtain ⟨blk', hsb', hptr', hdata'⟩ := ih (push_inv hinv hp) h b blk1 hsb1
      exact ⟨blk', hsb', by rw [hptr', hptr1], fun o x hx => hdata' o x (hdata1 o x hx)⟩

/-- What `get` returns on an invariant-satisfying state. -/
theorem get_of_inv {T : Type} {s : SegmentedList T} {vs : List T}
    (hinv : ListInv s vs) :
    (∀ i (hi : i < vs.length), s.get i = some (some (vs.get ⟨i, hi⟩))) ∧
    ∀ i, vs.length ≤ i → s.get i = none := by
  constructor
  · intro i hi
    obtain ⟨blk, hsb, hdata⟩ := hinv.init i hi
    have hilt : ¬ s.len ≤ i := by
      rw [hinv.len_eq]
      omega
    simp only [SegmentedList.get, if_neg hilt, hsb, hdata]
  · intro i hi
    have hile : s.len ≤ i := by
      rw [hinv.len_eq]
      omega
    simp [SegmentedList.get, hile]

/-- Shape of a successfully constructed list. -/
theorem new_eq {T : Type} {sizeT alignT : Nat} {base : Nat → Nat}
    {s : SegmentedList T}
    (h : SegmentedList.new T sizeT alignT base = some s) :
    ∃ ptr a,
      layoutValid (START_SIZE * sizeT) alignT = true ∧
      (SegmentedAllocCtx.new).request base (START_SIZE * sizeT) alignT = some (ptr, a) ∧
      s = { blocks := Function.update (fun _ => none) 0
              (some { ptr := ptr, data := fun _ => none })
            block_lengths := Function.update (fun _ => 0) 0 START_SIZE
            allocator := a
            len := 0 } := by
  by_cases hl : layoutValid (START_SIZE * sizeT) alignT
  · simp only [SegmentedList.new, if_pos hl] at h
    rcases hreq : (SegmentedAllocCtx.new).request base (START_SIZE * sizeT) alignT
      with _ | ⟨ptr, a⟩
    · rw [hreq] at h
      exact absurd h (by simp)
    · rw [hreq] at h
      simp only [Option.some.injEq] at h
      exact ⟨ptr, a, hl, rfl, h.symm⟩
  · simp only [SegmentedList.new, if_neg hl] at h
    exact absurd h (by simp)

/-- A fresh list satisfies the invariant with empty contents. -/
theorem new_listInv {T : Type} {sizeT alignT : Nat} {base : Nat → Nat}
    {s : SegmentedList T}
    (h : SegmentedList.new T sizeT alignT base = some s) : ListInv s [] := by
  obtain ⟨ptr, a, _, _, hs⟩ := new_eq h
  subst hs
  constructor
  case len_eq => rfl
  case hi_none =>
    intro b hb
    have hb0 : b ≠ 0 := by
      simp only [BLOCK_COUNT] at hb
      omega
    dsimp only
    rw [Function.update_noteq hb0]
  case alloc_len =>
    intro b blk hsb
    dsimp only at hsb ⊢
    by_cases hb0 : b = 0
    · subst hb0
      rw [Function.update_same]
      simp [blockCap, START_SIZE]
    · rw [Function.update_noteq hb0] at hsb
      exact absurd hsb (by simp)
  case unalloc_len =>
    intro b hsb
    dsimp only at hsb ⊢
    by_cases hb0 : b = 0
    · subst hb0
      rw [Function.update_same] at hsb
      exact absurd hsb (by simp)
    · rw [Function.update_noteq hb0]
  case down =>
    intro b b' hle hsome
    dsimp only at hsome ⊢
    by_cases hb0 : b = 0
    · have hb'0 : b' = 0 := by omega
      subst hb'0
      rw [Function.update_same]
      rfl
    · rw [Function.update_noteq hb0] at hsome
      exact absurd hsome (by simp)
  case init =>
    intro i hi
    exact absurd hi (by simp)
  case uninit =>
    intro i _ blk hsb
    dsimp only at hsb ⊢
    by_cases hb0 : (idx_to_block_idx i).1 = 0
    · rw [hb0, Function.update_same] at hsb
      have hblk : ({ ptr := ptr, data := fun _ => none } : Block T) = blk := by
        injection hsb
      rw [← hblk]
    · rw [Function.update_noteq hb0] at hsb
      exact absurd hsb (by simp)

theorem demoList_inv : ∀ s, demoList = some s → ListInv s [10, 20, 30] := by
  intro s h
  cases h0 : SegmentedList.new Nat 8 8 demoBase with
  | none =>
    have hns : (SegmentedList.new Nat 8 8 demoBase).isSome = true := by decide
    rw [h0] at hns
    exact absurd hns (by simp)
  | some s0 =>
    cases hp : pushAll 8 8 demoBase s0 [10, 20, 30] with
    | none =>
      have hd : demoList = none := by
        simp [demoList, h0, hp]
      rw [hd] at h
      exact absurd h (by simp)
    | some s1 =>
      have hd : demoList = some s1 := by
        simp [demoList, h0, hp]
      rw [hd] at h
      have hs : s1 = s := by injection h
      subst hs
      have := pushAll_inv (new_listInv h0) hp
      simpa using this

theorem layoutValid_align_pos {size align : Nat} (h : layoutValid size align = true) :
    0 < align := by
  simp only [layoutValid, Bool.and_eq_true, isPow2, beq_iff_eq] at h
  obtain ⟨h1, _⟩ := h
  rw [h1]
  exact Nat.pos_pow_of_pos _ (by norm_num)

/-- C1: after pushing the sequence `vs` into a fresh list, `get i` returns
the i-th pushed value for every `i < vs.length`, and `get vs.length`
returns `none`. -/
theorem c1_push_get {T : Type} {sizeT alignT : Nat} {base : Nat → Nat}
    {s0 s : SegmentedList T} {vs : List T}
    (h0 : SegmentedList.new T sizeT alignT base = some s0)
    (h : pushAll sizeT alignT base s0 vs = some s) :
    (∀ i (hi : i < vs.length), s.get i = some (some (vs.get ⟨i, hi⟩))) ∧
    s.get vs.length = none := by
  have hinv : ListInv s vs := by
    have := pushAll_inv (new_listInv h0) h
    simpa using this
  exact ⟨(get_of_inv hinv).1, (get_of_inv hinv).2 vs.length (Nat.le_refl _)⟩

theorem c1_push_get_witness :
    (demoList.map fun s => (s.get 0, s.get 1, s.get 2, s.get 3)) =
      some (some (some 10), some (some 20), some (some 30), none) := by
  cases h0 : SegmentedList.new Nat 8 8 demoBase with
  | none =>
    have hns : (SegmentedList.new Nat 8 8 demoBase).isSome = true := by decide
    rw [h0] at hns
    exact absurd hns (by simp)
  | some s0 =>
    cases hp : pushAll 8 8 demoBase s0 [10, 20, 30] with
    | none =>
      have hd : demoList = none := by simp [demoList, h0, hp]
      have hds : demoList.isSome = true := by decide
      rw [hd] at hds
      exact absurd hds (by simp)
    | some s =>
      have hd : demoList = some s := by simp [demoList, h0, hp]
      have hc := c1_push_get h0 hp
      have e0 : s.get 0 = some (some 10) := hc.1 0 (by norm_num)
      have e1 : s.get 1 = some (some 20) := hc.1 1 (by norm_num)
      have e2 : s.get 2 = some (some 30) := hc.1 2 (by norm_num)
      have e3 : s.get 3 = none := hc.2
      rw [hd]
      show some (s.get 0, s.get 1, s.get 2, s.get 3) = _
      rw [e0, e1, e2, e3]

/-- C3: values visible through `get` below the old length, existing block
pointers and already-written slots are all unchanged by any number of
subsequent pushes. -/
theorem c3_pointer_stability {T : Type} {sizeT alignT : Nat} {base : Nat → Nat}
    {s s' : SegmentedList T} {vs ws : List T}
    (hinv : ListInv s vs) (h : pushAll sizeT alignT base s ws = some s') :
    (∀ i, i < s.len → s'.get i = s.get i) ∧
    (∀ b blk, s.blocks b = some blk → ∃ blk', s'.blocks b = some blk' ∧
      blk'.ptr = blk.ptr ∧ ∀ o x, blk.data o = some x → blk'.data o = some x) := by
  have hinv' : ListInv s' (vs ++ ws) := pushAll_inv hinv h
  constructor
  · intro i hi
    have hivs : i < vs.length := by
      rw [← hinv.len_eq]
      exact hi
    have h1 := (get_of_inv hinv).1 i hivs
    have hivw : i < (vs ++ ws).length := by
      simp
      omega
    have h2 := (get_of_inv hinv').1 i hivw
    rw [h1, h2]
    have hv : (vs ++ ws).get ⟨i, hivw⟩ = vs.get ⟨i, hivs⟩ := by
      simp [List.get_eq_getElem, List.getElem_append_left, hivs]
    rw [hv]
  · exact pushAll_frame hinv h

theorem c3_pointer_stability_witness :
    (demoList.bind fun s => (pushAll 8 8 demoBase s [40, 50]).bind fun t => t.get 1) =
      (demoList.bind fun s => s.get 1) ∧
    (demoList.bind fun s => s.get 1) = some (some 20) := by
  cases hd : demoList with
  | none =>
    have hds : demoList.isSome = true := by decide
    rw [hd] at hds
    exact absurd hds (by simp)
  | some s =>
    have hinv := demoList_inv s hd
    have hlen : s.len = 3 := hinv.len_eq
    have hget2 : s.get 1 = some (some 20) := (get_of_inv hinv).1 1 (by norm_num)
    cases hp : pushAll 8 8 demoBase s [40, 50] with
    | none =>
      have hps : (demoList.bind fun u =>
          some (pushAll 8 8 demoBase u [40, 50]).isSome) = some true := by decide
      rw [hd] at hps
      simp only [Option.some_bind, Option.some.injEq] at hps
      rw [hp] at hps
      exact absurd hps (by simp)
    | some t =>
      have hc := c3_pointer_stability hinv hp
      have hg := hc.1 1 (by omega)
      refine ⟨?_, ?_⟩
      · simp only [Option.some_bind]
        rw [hp]
        simp only [Option.some_bind]
        exact hg
      · simp only [Option.some_bind]
        exact hget2

/-- C6 counterexample: immediately after `new()` (element size and alignment
8), the container already owns backing storage — `len = 0` but
`capacity = 8`, the first block pointer is populated, and the arena has
mapped its first block — contradicting the claimed zero-allocation
construction with `capacity() = 0` until the first push. -/
theorem c6_counterexample :
    (SegmentedList.new Nat 8 8 demoBase).map
        (fun s => (s.len, s.capacity, (s.blocks 0).isSome,
          (s.allocator.blocks 0).isSome)) = some (0, 8, true, true) ∧
    (8 : Nat) ≠ 0 :=
  ⟨by decide, by decide⟩

/-- C6 (amended): `new()` returns an empty container (`len = 0`) but
eagerly allocates the first block of `START_SIZE` elements and issues one
allocation request to the arena: `capacity()` is `START_SIZE = 8` from
construction, block 0 is populated and the arena has mapped a block. -/
theorem c6_new_eager {T : Type} {sizeT alignT : Nat} {base : Nat → Nat}
    {s : SegmentedList T}
    (h : SegmentedList.new T sizeT alignT base = some s) :
    s.len = 0 ∧ s.capacity = START_SIZE ∧ (s.blocks 0).isSome ∧
    s.block_lengths 0 = START_SIZE ∧ (s.allocator.blocks 0).isSome := by
  obtain ⟨ptr, a, hl, hreq, hs⟩ := new_eq h
  have hal : 0 < alignT := layoutValid_align_pos hl
  subst hs
  refine ⟨rfl, ?_, ?_, ?_, ?_⟩
  · show ((List.range BLOCK_COUNT).map (Function.update (fun _ => 0) 0 START_SIZE)).sum =
      START_SIZE
    decide
  · dsimp only
    rw [Function.update_same]
    rfl
  · dsimp only
    rw [Function.update_same]
  · dsimp only
    rw [request_new_eq] at hreq
    obtain ⟨hwf', -, -⟩ := reqLoop_spec hal MAX_BLOCKS (startedCtx base) ptr a
      (startedCtx_wf base) hreq
    rw [hwf'.mapped 0 (Nat.zero_le _)]
    rfl

theorem c6_new_eager_witness :
    (SegmentedList.new Nat 8 8 demoBase).map
        (fun s => (s.len, s.capacity, (s.blocks 0).isSome,
          (s.allocator.blocks 0).isSome)) = some (0, START_SIZE, true, true) := by
  cases h0 : SegmentedList.new Nat 8 8 demoBase with
  | none =>
    have hns : (SegmentedList.new Nat 8 8 demoBase).isSome = true := by decide
    rw [h0] at hns
    exact absurd hns (by simp)
  | some s =>
    have hc := c6_new_eager h0
    show some (s.len, s.capacity, (s.blocks 0).isSome,
      (s.allocator.blocks 0).isSome) = _
    rw [hc.1, hc.2.1, hc.2.2.1, hc.2.2.2.2]

/-- C7: on a reachable state, `get` and `get_mut` return a reference exactly
when `idx < len` and the recoverable `none` otherwise — never undefined
behaviour — while the indexing operators succeed exactly when `idx < len`
and signal the fatal out-of-bounds error otherwise. -/
theorem c7_bounds {T : Type} {s : SegmentedList T} {vs : List T}
    (hinv : ListInv s vs) (idx : Nat) :
    ((s.get idx).isSome ↔ idx < s.len) ∧
    ((s.get_mut idx).isSome ↔ idx < s.len) ∧
    ((s.index idx).isOk ↔ idx < s.len) ∧
    ((s.index_mut idx).isOk ↔ idx < s.len) ∧
    (s.len ≤ idx →
      s.get idx = none ∧ s.get_mut idx = none ∧
      s.index idx = Except.error "index out of bounds for List of length" ∧
      s.index_mut idx = Except.error "index out of bounds for List of length") := by
  by_cases hlt : idx < s.len
  · have hivs : idx < vs.length := by
      rw [← hinv.len_eq]
      exact hlt
    obtain ⟨blk, hsb, _⟩ := hinv.init idx hivs
    have hnle : ¬ s.len ≤ idx := by omega
    refine ⟨?_, ?_, ?_, ?_, fun hc => absurd hc hnle⟩
    · simp [SegmentedList.get, if_neg hnle, hsb, hlt]
    · simp [SegmentedList.get_mut, if_neg hnle, hsb, hlt]
    · simp [SegmentedList.index, if_neg hnle, hsb, hlt, Except.isOk, Except.toBool]
    · simp [SegmentedList.index_mut, if_neg hnle, hsb, hlt, Except.isOk, Except.toBool]
  · have hle : s.len ≤ idx := by omega
    refine ⟨?_, ?_, ?_, ?_, fun _ => ⟨?_, ?_, ?_, ?_⟩⟩ <;>
      simp [SegmentedList.get, SegmentedList.get_mut, SegmentedList.index,
        SegmentedList.index_mut, if_pos hle, hle, hlt, Except.isOk, Except.toBool]

theorem c7_bounds_witness :
    Option.elim demoList False (fun s =>
      ((s.get 1).isSome ↔ 1 < s.len) ∧ ((s.index 1).isOk ↔ 1 < s.len) ∧
      s.get 5 = none ∧
      s.index 5 = Except.error "index out of bounds for List of length") := by
  cases hd : demoList with
  | none =>
    have hds : demoList.isSome = true := by decide
    rw [hd] at hds
    exact absurd hds (by simp)
  | some s =>
    have hinv := demoList_inv s hd
    have hlen : s.len = 3 := hinv.len_eq
    have h1 := c7_bounds hinv 1
    have h5 := c7_bounds hinv 5
    simp only [Option.elim]
    exact ⟨h1.1, h1.2.2.1, (h5.2.2.2.2 (by omega)).1, (h5.2.2.2.2 (by omega)).2.2.1⟩

/-- C10: `compute_segmented_idx` yields a token exactly for `idx ≤ len`
(including the one-past-the-end index `len`), and when the block of `len`
is already allocated the token for `len` dereferences through
`get_with_segmented_idx` to a slot that is still uninitialized. -/
theorem c10_token_at_len {T : Type} {s : SegmentedList T} {vs : List T}
    (hinv : ListInv s vs) :
    (∀ idx, (s.compute_segmented_idx idx).isSome ↔ idx ≤ s.len) ∧
    s.compute_segmented_idx s.len = some (idx_to_block_idx s.len) ∧
    (∀ blk, s.blocks (idx_to_block_idx s.len).1 = some blk →
      s.get_with_segmented_idx (idx_to_block_idx s.len) =
        some (blk.data (idx_to_block_idx s.len).2) ∧
      blk.data (idx_to_block_idx s.len).2 = none) := by
  refine ⟨?_, ?_, ?_⟩
  · intro idx
    by_cases hlt : s.len < idx
    · simp only [SegmentedList.compute_segmented_idx, if_pos hlt]
      simp
      omega
    · simp only [SegmentedList.compute_segmented_idx, if_neg hlt]
      simp
      omega
  · simp [SegmentedList.compute_segmented_idx]
  · intro blk hsb
    refine ⟨?_, ?_⟩
    · simp [SegmentedList.get_with_segmented_idx, hsb]
    · exact hinv.uninit s.len (Nat.le_of_eq hinv.len_eq.symm) blk hsb

theorem c10_token_at_len_witness :
    Option.elim demoList False (fun s =>
      s.compute_segmented_idx 3 = some (0, 3) ∧
      ((s.compute_segmented_idx 4).isSome ↔ 4 ≤ s.len) ∧
      s.get_with_segmented_idx (0, 3) = some none) := by
  cases hd : demoList with
  | none =>
    have hds : demoList.isSome = true := by decide
    rw [hd] at hds
    exact absurd hds (by simp)
  | some s =>
    have hinv := demoList_inv s hd
    have hlen : s.len = 3 := hinv.len_eq
    have hc := c10_token_at_len hinv
    simp only [Option.elim]
    refine ⟨?_, hc.1 4, ?_⟩
    · have hcl := hc.2.1
      rw [hlen] at hcl
      rw [hcl]
      decide
    · obtain ⟨blk, hsb0, _⟩ := hinv.init 0 (by norm_num)
      have hsb0' : s.blocks (idx_to_block_idx s.len).1 = some blk := by
        rw [hlen]
        have hbb : (idx_to_block_idx 3).1 = (idx_to_block_idx 0).1 := by decide
        rw [hbb]
        exact hsb0
      obtain ⟨hg, hn⟩ := hc.2.2 blk hsb0'
      rw [hlen] at hg hn
      have h3 : idx_to_block_idx 3 = (0, 3) := by decide
      rw [h3] at hg hn
      rw [hg, hn]

/-- C2: the index mapping is exact and reversible
(`START_SIZE * (2 ^ block - 1) + offset = idx`), the block number is
monotonically non-decreasing in the index, and every block-boundary index
(including 0) maps to offset 0 of the new block. -/
theorem c2_index_mapping :
    (∀ idx, START_SIZE * (2 ^ (idx_to_block_idx idx).1 - 1) +
      (idx_to_block_idx idx).2 = idx) ∧
    (∀ i j, i ≤ j → (idx_to_block_idx i).1 ≤ (idx_to_block_idx j).1) ∧
    (∀ k, idx_to_block_idx (START_SIZE * (2 ^ k - 1)) = (k, 0)) ∧
    idx_to_block_idx 0 = (0, 0) := by
  refine ⟨?_, ?_, ?_, ?_⟩
  · intro idx
    have h := idx_to_block_idx_recon idx
    simpa [blockStart] using h
  · intro i j hij
    exact idx_to_block_idx_mono hij
  · intro k
    have h := idx_to_block_idx_boundary k
    simpa [blockStart] using h
  · decide

theorem c2_index_mapping_witness :
    START_SIZE * (2 ^ (idx_to_block_idx 100).1 - 1) + (idx_to_block_idx 100).2 = 100 ∧
    (idx_to_block_idx 5).1 ≤ (idx_to_block_idx 23).1 ∧
    idx_to_block_idx (START_SIZE * (2 ^ 2 - 1)) = (2, 0) :=
  ⟨c2_index_mapping.1 100, c2_index_mapping.2.1 5 23 (by norm_num),
    c2_index_mapping.2.2.1 2⟩

theorem clearGo_zero {T : Type} (s : SegmentedList T) (bi fuel : Nat) :
    clearGo s 0 bi fuel = [] := by
  cases fuel <;> simp [clearGo]

/-- The drop loop of `clear` enumerates, in order, exactly the slots of the
logical indices `[blockStart bi, blockStart bi + r)`, provided the covered
blocks are allocated with their nominal capacities. -/
theorem clearGo_spec {T : Type} {s : SegmentedList T}
    (hbc : ∀ k, (s.blocks k).isSome → k < BLOCK_COUNT) :
    ∀ fuel bi r,
      (∀ k, bi ≤ k → blockStart k < blockStart bi + r →
        (s.blocks k).isSome ∧ s.block_lengths k = blockCap k) →
      BLOCK_COUNT ≤ fuel + bi →
      clearGo s r bi fuel =
        (List.range r).map (fun j => idx_to_block_idx (blockStart bi + j)) := by
  intro fuel
  induction fuel with
  | zero =>
    intro bi r hcov hfuel
    rcases Nat.eq_zero_or_pos r with hr | hr
    · subst hr
      simp [clearGo]
    · have hk := hcov bi (Nat.le_refl _) (by omega)
      have := hbc bi hk.1
      omega
  | succ fuel ih =>
    intro bi r hcov hfuel
    rcases Nat.eq_zero_or_pos r with hr | hr
    · subst hr
      simp [clearGo]
    · obtain ⟨hsome, hlen⟩ := hcov bi (Nat.le_refl _) (by omega)
      rcases hblk : s.blocks bi with _ | blk
      · rw [hblk] at hsome
        exact absurd hsome (by simp)
      · have hne : ¬ r = 0 := by omega
        simp only [clearGo, if_neg hne, hblk]
        rw [hlen]
        by_cases hcase : r ≤ blockCap bi
        · have htake : min r (blockCap bi) = r := Nat.min_eq_left hcase
          rw [htake, Nat.sub_self, clearGo_zero, List.append_nil]
          refine List.map_congr_left ?_
          intro j hj
          rw [List.mem_range] at hj
          have hloc := @idx_to_block_idx_loc bi (blockStart bi + j)
            (Nat.le_add_right _ _) (by omega)
          rw [hloc]
          simp
        · have hgt : blockCap bi < r := by omega
          have htake : min r (blockCap bi) = blockCap bi :=
            Nat.min_eq_right (Nat.le_of_lt hgt)
          rw [htake]
          have hcov' : ∀ k, bi + 1 ≤ k →
              blockStart k < blockStart (bi + 1) + (r - blockCap bi) →
              (s.blocks k).isSome ∧ s.block_lengths k = blockCap k := by
            intro k hk1 hk2
            refine hcov k (by omega) ?_
            rw [blockStart_succ] at hk2
            omega
          rw [ih (bi + 1) (r - blockCap bi) hcov' (by omega)]
          conv_rhs => rw [show r = blockCap bi + (r - blockCap bi) from by omega]
          rw [List.range_add, List.map_append, List.map_map]
          congr 1
          · refine List.map_congr_left ?_
            intro j hj
            rw [List.mem_range] at hj
            have hloc := @idx_to_block_idx_loc bi (blockStart bi + j)
              (Nat.le_add_right _ _) (by omega)
            rw [hloc]
            simp
          · refine List.map_congr_left ?_
            intro j _
            simp only [Function.comp]
            have hbs := blockStart_succ bi
            congr 1
            omega

/-- C8: `clear` drops exactly the slots of indices `0 .. len - 1`, in
order and each exactly once, resets `len` to 0, and leaves the capacity,
the block lengths and the block pointers untouched. -/
theorem c8_clear {T : Type} {s : SegmentedList T} {vs : List T}
    (hinv : ListInv s vs) :
    (s.clear).1 = (List.range s.len).map idx_to_block_idx ∧
    (s.clear).1.Nodup ∧
    (∀ i, i < s.len → idx_to_block_idx i ∈ (s.clear).1) ∧
    (s.clear).2.len = 0 ∧
    (s.clear).2.capacity = s.capacity ∧
    (∀ b, (s.clear).2.block_lengths b = s.block_lengths b) ∧
    (∀ b, ((s.clear).2.blocks b).map Block.ptr = (s.blocks b).map Block.ptr) := by
  have hbc : ∀ k, (s.blocks k).isSome → k < BLOCK_COUNT := by
    intro k hk
    by_contra hc
    rw [hinv.hi_none k (by omega)] at hk
    exact absurd hk (by simp)
  have hbs0 : blockStart 0 = 0 := by
    simp [blockStart]
  have hcov : ∀ k, 0 ≤ k → blockStart k < blockStart 0 + s.len →
      (s.blocks k).isSome ∧ s.block_lengths k = blockCap k := by
    intro k _ hk
    rw [hbs0, Nat.zero_add] at hk
    have hkvs : blockStart k < vs.length := by
      rw [← hinv.len_eq]
      exact hk
    obtain ⟨blk, hsb, _⟩ := hinv.init (blockStart k) hkvs
    rw [idx_to_block_idx_boundary k] at hsb
    simp only at hsb
    exact ⟨by rw [hsb]; rfl, hinv.alloc_len k blk hsb⟩
  have hdropped : (s.clear).1 = (List.range s.len).map idx_to_block_idx := by
    show clearGo s s.len 0 BLOCK_COUNT = _
    rw [clearGo_spec hbc BLOCK_COUNT 0 s.len hcov (by omega)]
    refine List.map_congr_left ?_
    intro j _
    rw [hbs0, Nat.zero_add]
  refine ⟨hdropped, ?_, ?_, rfl, rfl, fun b => rfl, ?_⟩
  · rw [hdropped]
    exact (List.nodup_range _).map idx_to_block_idx_injective
  · intro i hi
    rw [hdropped]
    exact List.mem_map.mpr ⟨i, List.mem_range.mpr hi, rfl⟩
  · intro b
    show (((s.blocks b).map _).map Block.ptr) = _
    cases s.blocks b <;> rfl

theorem c8_clear_witness :
    Option.elim demoList False (fun s =>
      (s.clear).1 = (List.range s.len).map idx_to_block_idx ∧
      (s.clear).1.Nodup ∧ (s.clear).2.len = 0 ∧
      (s.clear).2.capacity = s.capacity) := by
  cases hd : demoList with
  | none =>
    have hds : demoList.isSome = true := by decide
    rw [hd] at hds
    exact absurd hds (by simp)
  | some s =>
    have hinv := demoList_inv s hd
    have hc := c8_clear hinv
    simp only [Option.elim]
    exact ⟨hc.1, hc.2.1, hc.2.2.2.1, hc.2.2.2.2.1⟩

end Segmented
